import Mathlib

set_option maxHeartbeats 1000000

/-!
Verification development for `src/photo-transfer.py`: a shallow embedding of the
script's pure core (path handling, the collision renamer, the EXIF-date parser)
and of its effectful parts (directory creation, file copy, the sqlite ledger)
as explicit state passing over an association-list filesystem, with theorems
checking the specification's claims against the embedded code.
-/

namespace PhotoTransfer

/-- A calendar timestamp; models Python `datetime` restricted to the six fields
the script uses. -/
structure DateTime where
  year : Nat
  month : Nat
  day : Nat
  hour : Nat
  minute : Nat
  second : Nat
deriving DecidableEq

/-- Decimal digits of `n`, most significant first; fuel-based so that it stays
structurally recursive (the fuel `n + 1` always suffices).  Together with
`strNat`, this models Python `str` applied to a nonnegative `int`. -/
def natDigitsAux : Nat → Nat → List Char
  | 0, _ => []
  | fuel + 1, n =>
    if n < 10 then [Nat.digitChar n]
    else natDigitsAux fuel (n / 10) ++ [Nat.digitChar (n % 10)]

/-- Models Python `str(n)` for a nonnegative integer: minimal decimal rendering,
no zero padding. -/
def strNat (n : Nat) : String := String.mk (natDigitsAux (n + 1) n)

/-- Models `posixpath.join` for two components: an absolute second component
replaces the first, otherwise a single `/` separator is inserted unless the
first component is empty or already ends in `/`. -/
def pjoin (a b : String) : String :=
  if b.toList.head? = some '/' then b
  else if a = "" ∨ a.toList.getLast? = some '/' then a ++ b
  else a ++ "/" ++ b

/-- Models `os.path.split` (posix): split at the last `/`; the head keeps its
trailing slash only when it consists solely of slashes, otherwise trailing
slashes are stripped from it. -/
def splitPathL (cs : List Char) : List Char × List Char :=
  let tl := (cs.reverse.takeWhile (fun c => c != '/')).reverse
  let hd := (cs.reverse.dropWhile (fun c => c != '/')).reverse
  if hd.all (fun c => c == '/') then (hd, tl)
  else ((hd.reverse.dropWhile (fun c => c == '/')).reverse, tl)

/-- Models `os.path.splitext` applied to a basename (the script only ever calls
it on the result of `os.path.split`, which contains no `/`): the extension
starts at the last dot, unless every character before that dot is itself a dot
(leading-dot filenames keep their dots in the stem). -/
def splitextL (cs : List Char) : List Char × List Char :=
  let afterDot := (cs.reverse.takeWhile (fun c => c != '.')).reverse
  let withDot := (cs.reverse.dropWhile (fun c => c != '.')).reverse
  if withDot = [] then (cs, [])
  else
    let stem := withDot.dropLast
    if stem.all (fun c => c == '.') then (cs, [])
    else (stem, '.' :: afterDot)

/-- Value of a list of decimal digits, most significant first; models Python
`int` applied to the digit group captured by the renamer's pattern. -/
def digitsVal (ds : List Char) : Nat := ds.foldl (fun n c => n * 10 + (c.toNat - 48)) 0

/-- Models `re.search` of the pattern "backslash ( digits backslash ) $" on the
extension-free basename: a trailing parenthesised nonempty digit group.  The
script additionally checks `isdigit` on the captured group, which is always
true for the digits the pattern captures. -/
def versionSuffix (base : List Char) : Option Nat :=
  let rb := base.reverse
  if rb.head? = some ')' then
    let ds := rb.tail.takeWhile Char.isDigit
    if ds = [] then none
    else if (rb.tail.dropWhile Char.isDigit).head? = some '(' then
      some (digitsVal ds.reverse)
    else none
  else none

/-- Embeds `rename_copy` from the script: split off the directory, split off
the extension, then either bump a trailing `(n)` version suffix (keeping only
the part of the basename before its FIRST opening parenthesis, as
`split('(')[0]` does) or append `(1)`. -/
def rename_copy (filename : String) : String :=
  let ps := splitPathL filename.toList
  let fe := splitextL ps.2
  let v := versionSuffix fe.1
  let numVersion := (v.map (fun n => n + 1)).getD 1
  let fwe1 := if v.isSome then fe.1.takeWhile (fun c => c != '(') else fe.1
  let fwe2 := fwe1 ++ '(' :: ((strNat numVersion).toList ++ [')'])
  pjoin (String.mk ps.1) (String.mk (fwe2 ++ fe.2))

/-- Substring test on character lists; models the Python expression
`needle in hay` for strings (contiguous substring containment). -/
def isSubstrL (needle : List Char) : List Char → Bool
  | [] => needle.isEmpty
  | c :: t => needle.isPrefixOf (c :: t) || isSubstrL needle t

/-- A filesystem entry: a directory, or a file whose contents are abstracted to
a single number (enough to observe overwrites). -/
inductive Entry
  | dir
  | file (content : Nat)
deriving DecidableEq

/-- The filesystem, as an association list from absolute path to entry. -/
abbrev FSt := List (String × Entry)

/-- Entry at a path, if any. -/
def fsFind (fs : FSt) (p : String) : Option Entry :=
  (fs.find? (fun x => x.1 == p)).map (fun x => x.2)

/-- Models `os.path.exists`. -/
def fsExists (fs : FSt) (p : String) : Bool := (fsFind fs p).isSome

/-- Models `os.path.isdir`. -/
def fsIsDir (fs : FSt) (p : String) : Bool := fsFind fs p == some Entry.dir

/-- The failure conditions the script can raise. -/
inductive Err
  | ioError (path : String)
  | fileExists (path : String)
  | isADirectory (path : String)
  | duplicateKey
deriving DecidableEq

/-- The per-run environment: what the external collaborators (exifread, file
modification times, file contents, per-path open failures, the wall clock)
answer for each path. -/
structure Env where
  exifTag : String → Option String
  mtime : String → DateTime
  content : String → Nat
  openErr : String → Bool
  nowTs : String

/-- Days in a month, Gregorian; models the validation done by the Python
`datetime` constructor. -/
def daysInMonth (y m : Nat) : Nat :=
  if m = 2 then (if (y % 4 = 0 ∧ y % 100 ≠ 0) ∨ y % 400 = 0 then 29 else 28)
  else if m = 4 ∨ m = 6 ∨ m = 9 ∨ m = 11 then 30 else 31

/-- Field validation for the six captured digit groups, following CPython's
`_strptime` regular expressions for `%Y:%m:%d %H:%M:%S` (each numeric field
accepts one or two digits — the year exactly four — with the documented value
ranges) followed by the `datetime` constructor's own checks (year at least 1,
seconds at most 59, day at most the month's length). -/
def mkValidDate (yds mds dds hds minds sds : List Char) : Option DateTime :=
  let y := digitsVal yds
  let m := digitsVal mds
  let d := digitsVal dds
  let hh := digitsVal hds
  let mi := digitsVal minds
  let ss := digitsVal sds
  if yds.length = 4 ∧ 1 ≤ y
      ∧ (mds.length = 1 ∨ mds.length = 2) ∧ 1 ≤ m ∧ m ≤ 12
      ∧ (dds.length = 1 ∨ dds.length = 2) ∧ 1 ≤ d
      ∧ (hds.length = 1 ∨ (hds.length = 2 ∧ hh ≤ 23))
      ∧ (minds.length = 1 ∨ (minds.length = 2 ∧ mi ≤ 59))
      ∧ (sds.length = 1 ∨ (sds.length = 2 ∧ ss ≤ 61))
      ∧ ss ≤ 59 ∧ d ≤ daysInMonth y m
  then some ⟨y, m, d, hh, mi, ss⟩ else none

/-- Models `datetime.strptime(s, EXIF_DATE_FMT)` for the fixed format
`%Y:%m:%d %H:%M:%S`: literal colons, one or more whitespace characters for the
literal space (CPython compiles literal whitespace in a format to a
one-or-more whitespace pattern), digit groups for the six fields, the whole
string consumed, and the captured values validated by `mkValidDate`. -/
def parseExifDate (s : String) : Option DateTime :=
  let cs := s.toList
  let yds := cs.takeWhile Char.isDigit
  match cs.dropWhile Char.isDigit with
  | ':' :: r2 =>
    let mds := r2.takeWhile Char.isDigit
    match r2.dropWhile Char.isDigit with
    | ':' :: r4 =>
      let dds := r4.takeWhile Char.isDigit
      match r4.dropWhile Char.isDigit with
      | c :: r5 =>
        if c.isWhitespace then
          let r6 := r5.dropWhile Char.isWhitespace
          let hds := r6.takeWhile Char.isDigit
          match r6.dropWhile Char.isDigit with
          | ':' :: r7 =>
            let minds := r7.takeWhile Char.isDigit
            match r7.dropWhile Char.isDigit with
            | ':' :: r8 =>
              let sds := r8.takeWhile Char.isDigit
              if r8.dropWhile Char.isDigit = [] then
                mkValidDate yds mds dds hds minds sds
              else none
            | _ => none
          | _ => none
        else none
      | _ => none
    | _ => none
  | _ => none

/-- Embeds `original_date` from the script: open the file (which can raise, and
the script does not catch it here), look for the EXIF tag; a present tag that
parses yields `(True, parsed)`, a present tag that fails `strptime` is caught
by the bare `except` (after the warning) and falls through, and both the
absent and the malformed cases yield `(False, mtime)`. -/
def original_date (env : Env) (filename : String) : Except Err (Bool × DateTime) :=
  if env.openErr filename then .error (.ioError filename)
  else
    match env.exifTag filename with
    | some raw =>
      match parseExifDate raw with
      | some d => .ok (true, d)
      | none => .ok (false, env.mtime filename)
    | none => .ok (false, env.mtime filename)

/-- The loop body of `get_or_create_path`: join each subpath in turn, and
`os.mkdir` it unless it already is a directory; `os.mkdir` raises
`FileExistsError` when the path exists (here necessarily as a non-directory,
since the branch is guarded by `isdir`). -/
def createSubpaths : FSt → String → List String → Except Err (FSt × String)
  | fs, path, [] => .ok (fs, path)
  | fs, path, sub :: rest =>
    let path2 := pjoin path sub
    if fsIsDir fs path2 then createSubpaths fs path2 rest
    else
      match fsFind fs path2 with
      | some _ => .error (.fileExists path2)
      | none => createSubpaths ((path2, Entry.dir) :: fs) path2 rest

/-- Embeds `get_or_create_path` from the script: extend the output root by
`str(year)`, `str(month)`, `str(day)` in order, creating each missing
segment. -/
def get_or_create_path (fs : FSt) (path : String) (date : DateTime) :
    Except Err (FSt × String) :=
  createSubpaths fs path [strNat date.year, strNat date.month, strNat date.day]

/-- Models `shutil.copy2`: opening the source can raise; copying onto an
existing directory raises; otherwise the destination entry is created or
silently overwritten with the source's content. -/
def copy2 (env : Env) (fs : FSt) (src dst : String) : Except Err FSt :=
  if env.openErr src then .error (.ioError src)
  else
    match fsFind fs dst with
    | some Entry.dir => .error (.isADirectory dst)
    | _ => .ok ((dst, Entry.file (env.content src)) :: fs.filter (fun x => !(x.1 == dst)))

/-- One row of the `photo_transfer` table. -/
structure LRecord where
  original : String
  copy : String
  ts : String
deriving DecidableEq

/-- The DDL the script issues, verbatim. -/
def SQL_CREATE : String :=
  "CREATE TABLE photo_transfer (id INTEGER PRIMARY KEY, original VARCHAR(512), copy VARCHAR(512), timestamp VARCHAR(30))"

/-- The index DDL the script issues, verbatim: a plain, non-unique index. -/
def SQL_CREATE_INDEX : String :=
  "CREATE INDEX original_idx ON photo_transfer(original)"

/-- Whether the schema makes `original` unique: it would take the keyword
UNIQUE in the index DDL, which is absent. -/
def originalIndexUnique : Bool := isSubstrL "UNIQUE".toList SQL_CREATE_INDEX.toList

/-- An INSERT into `photo_transfer` under the schema's constraints: the
primary key `id` is synthetic (sqlite assigns the rowid), so the only way a
duplicate-key failure could arise is a unique index on `original`; the row is
appended and committed. -/
def sqlInsertPhotoTransfer (rows : List LRecord) (r : LRecord) :
    Except Err (List LRecord) :=
  if originalIndexUnique ∧ rows.any (fun x => x.original == r.original) then
    .error .duplicateKey
  else .ok (rows ++ [r])

/-- Embeds `persist_original`: insert `(original, copy, now)` and commit. -/
def persist_original (rows : List LRecord) (original copy ts : String) :
    Except Err (List LRecord) :=
  sqlInsertPhotoTransfer rows ⟨original, copy, ts⟩

/-- Embeds `already_copied`: scan the rows whose `original` equals the given
path (the SELECT), and report whether any of them has the output root as a
substring (`output in row['copy']`) of its copy path. -/
def already_copied (ledger : List LRecord) (original output : String) : Bool :=
  ledger.any (fun row => row.original == original
    && isSubstrL output.toList row.copy.toList)

/-- The mutable state the script threads through a run: the filesystem and the
ledger table. -/
structure St where
  fs : FSt
  ledger : List LRecord
deriving DecidableEq

/-- Embeds `copy_file`: derive (and create) the destination directory, join the
walk name, rename ONCE if the candidate exists (an `if`, not a loop, and with
no re-check of the renamed candidate), copy, then persist. -/
def copy_file (env : Env) (st : St) (filename short_filename : String)
    (date : DateTime) (output : String) : Except Err St := do
  let fp ← get_or_create_path st.fs output date
  let copy0 := pjoin fp.2 short_filename
  let copy := if fsExists fp.1 copy0 then rename_copy copy0 else copy0
  let fs2 ← copy2 env fp.1 filename copy
  let ledger2 ← persist_original st.ledger filename copy env.nowTs
  return { fs := fs2, ledger := ledger2 }

/-- The per-file body of the walk loop in `process_path`: build the full name,
skip if `already_copied`, otherwise resolve the date and copy; the Boolean
reports whether the file was copied (the `processed_counter` increment).  No
exception is caught here: any error propagates. -/
def processOne (env : Env) (output : String) (st : St) (f : String × String) :
    Except Err (St × Bool) :=
  let full := pjoin f.1 f.2
  if already_copied st.ledger full output then .ok (st, false)
  else do
    let rd ← original_date env full
    let st2 ← copy_file env st full f.2 rd.2 output
    return (st2, true)

/-- The walk loop of `process_path` over the discovered `(root, name)` pairs,
returning the final state, the total-seen counter and the processed counter. -/
def processFiles (env : Env) (output : String) :
    List (String × String) → St → Except Err (St × Nat × Nat)
  | [], st => .ok (st, 0, 0)
  | f :: rest, st => do
    let sb ← processOne env output st f
    let r ← processFiles env output rest sb.1
    return (r.1, r.2.1 + 1, r.2.2 + (if sb.2 then 1 else 0))

/-- Embeds `process_path`: the input tree is the list of `(root, name)` pairs
`os.walk` yields, the database connection is the initial state's ledger. -/
def process_path (env : Env) (inputFiles : List (String × String))
    (output : String) (st : St) : Except Err (St × Nat × Nat) :=
  processFiles env output inputFiles st

/-- Follows the spec's words, for comparison with the code's `already_copied`:
a copy path "falls under (is a path inside)" the output root when it extends
that root by a path separator. -/
def fallsUnder (outputRoot copyPath : String) : Bool :=
  (outputRoot ++ "/").toList.isPrefixOf copyPath.toList

/-- Environment for the third-collision scenario: no EXIF data, a fixed
modification date, fresh content `3` for the incoming source file. -/
def envCollide : Env where
  exifTag := fun _ => none
  mtime := fun _ => ⟨2001, 11, 19, 0, 0, 0⟩
  content := fun _ => 3
  openErr := fun _ => false
  nowTs := "2015-08-02T00:00:00"

/-- State for the third-collision scenario: the destination day directory
already holds `photo.jpg` (content 1) and `photo(1).jpg` (content 2). -/
def stCollide : St where
  fs := [("/out/2001", Entry.dir), ("/out/2001/11", Entry.dir),
    ("/out/2001/11/19", Entry.dir),
    ("/out/2001/11/19/photo.jpg", Entry.file 1),
    ("/out/2001/11/19/photo(1).jpg", Entry.file 2)]
  ledger := []

/-- Environment in which opening `/in/a.jpg` raises an I/O error. -/
def envAbort : Env where
  exifTag := fun _ => none
  mtime := fun _ => ⟨2010, 3, 5, 0, 0, 0⟩
  content := fun _ => 7
  openErr := fun p => p == "/in/a.jpg"
  nowTs := "2015-08-02T00:00:00"

/-- Ledger whose only record for `/in/f.jpg` has a copy path outside `/out`
that nevertheless contains the characters `/out`. -/
def ledgerOutside : List LRecord := [⟨"/in/f.jpg", "/backup/outdated/f.jpg", "T"⟩]

/-- Environment with a well-formed EXIF capture date on every file. -/
def envExif : Env where
  exifTag := fun _ => some "2001:11:19 10:20:30"
  mtime := fun _ => ⟨1999, 1, 2, 3, 4, 5⟩
  content := fun _ => 0
  openErr := fun _ => false
  nowTs := "2015-08-02T00:00:00"

/-- Environment for the re-run scenario: no EXIF data, fixed modification
date, content `5`. -/
def envRerun : Env where
  exifTag := fun _ => none
  mtime := fun _ => ⟨2001, 11, 19, 0, 0, 0⟩
  content := fun _ => 5
  openErr := fun _ => false
  nowTs := "2015-08-02T00:00:00"

/-- The state a first run of `process_path envRerun [("/in", "x.jpg")] "/out"`
produces from an empty filesystem and ledger: three created directories, the
copied file, one ledger row. -/
def stRerun : St where
  fs := [("/out/2001/11/19/x.jpg", Entry.file 5), ("/out/2001/11/19", Entry.dir),
    ("/out/2001/11", Entry.dir), ("/out/2001", Entry.dir)]
  ledger := [⟨"/in/x.jpg", "/out/2001/11/19/x.jpg", "2015-08-02T00:00:00"⟩]

/-! General lemmas about the character-list helpers. -/

theorem strToList_append (s t : String) : (s ++ t).toList = s.toList ++ t.toList := by
  simp [String.toList]

theorem string_ne_empty_of_toList {s : String} (h : s.toList ≠ []) : s ≠ "" := by
  intro he
  subst he
  exact h rfl

theorem takeWhile_append_all {α : Type} {p : α → Bool} {xs ys : List α}
    (h : ∀ c ∈ xs, p c = true) :
    (xs ++ ys).takeWhile p = xs ++ ys.takeWhile p := by
  induction xs with
  | nil => rfl
  | cons a l ih =>
    simp only [List.cons_append, List.takeWhile_cons, h a (by simp)]
    simpa using ih (fun c hc => h c (by simp [hc]))

theorem dropWhile_append_all {α : Type} {p : α → Bool} {xs ys : List α}
    (h : ∀ c ∈ xs, p c = true) :
    (xs ++ ys).dropWhile p = ys.dropWhile p := by
  induction xs with
  | nil => rfl
  | cons a l ih =>
    simp only [List.cons_append, List.dropWhile_cons, h a (by simp)]
    exact ih (fun c hc => h c (by simp [hc]))

theorem takeWhile_cons_neg {α : Type} {p : α → Bool} {a : α} {l : List α}
    (h : p a = false) : (a :: l).takeWhile p = [] := by
  simp [List.takeWhile_cons, h]

theorem dropWhile_cons_neg {α : Type} {p : α → Bool} {a : α} {l : List α}
    (h : p a = false) : (a :: l).dropWhile p = a :: l := by
  simp [List.dropWhile_cons, h]

theorem digitChar_isDigit {n : Nat} (h : n < 10) : (Nat.digitChar n).isDigit = true := by
  interval_cases n <;> decide

theorem digitChar_val {n : Nat} (h : n < 10) : (Nat.digitChar n).toNat - 48 = n := by
  interval_cases n <;> decide

theorem natDigitsAux_digits :
    ∀ fuel n : Nat, ∀ c ∈ natDigitsAux fuel n, c.isDigit = true := by
  intro fuel
  induction fuel with
  | zero => intro n c hc; simp [natDigitsAux] at hc
  | succ fu ih =>
    intro n c hc
    by_cases h10 : n < 10
    · simp only [natDigitsAux, if_pos h10, List.mem_singleton] at hc
      subst hc
      exact digitChar_isDigit h10
    · simp only [natDigitsAux, if_neg h10, List.mem_append, List.mem_singleton] at hc
      rcases hc with hc | hc
      · exact ih _ c hc
      · subst hc
        exact digitChar_isDigit (Nat.mod_lt _ (by omega))

theorem natDigitsAux_ne_nil {fuel n : Nat} (h : 0 < fuel) : natDigitsAux fuel n ≠ [] := by
  cases fuel with
  | zero => omega
  | succ fu => by_cases h10 : n < 10 <;> simp [natDigitsAux, h10]

theorem strNat_digits (n : Nat) : ∀ c ∈ (strNat n).toList, c.isDigit = true :=
  natDigitsAux_digits (n + 1) n

theorem strNat_toList_ne_nil (n : Nat) : (strNat n).toList ≠ [] :=
  natDigitsAux_ne_nil (by omega)

theorem head?_ne_of_digits {l : List Char} {d : Char}
    (hall : ∀ c ∈ l, c.isDigit = true) (hd : d.isDigit = false) :
    l.head? ≠ some d := by
  cases l with
  | nil => simp
  | cons a t =>
    simp only [List.head?, ne_eq, Option.some.injEq]
    intro h
    subst h
    rw [hall a (by simp)] at hd
    exact Bool.noConfusion hd

theorem getLast?_ne_of_digits {l : List Char} {d : Char}
    (hall : ∀ c ∈ l, c.isDigit = true) (hd : d.isDigit = false) :
    l.getLast? ≠ some d := by
  intro h
  rw [hall d (List.mem_of_mem_getLast? h)] at hd
  exact Bool.noConfusion hd

theorem digitsVal_append_singleton (ds : List Char) (c : Char) :
    digitsVal (ds ++ [c]) = digitsVal ds * 10 + (c.toNat - 48) := by
  simp [digitsVal, List.foldl_append]

theorem digitsVal_natDigitsAux :
    ∀ fuel n : Nat, n < fuel → digitsVal (natDigitsAux fuel n) = n := by
  intro fuel
  induction fuel with
  | zero => omega
  | succ fu ih =>
    intro n hn
    by_cases h10 : n < 10
    · simp only [natDigitsAux, if_pos h10]
      simpa [digitsVal] using digitChar_val h10
    · simp only [natDigitsAux, if_neg h10]
      rw [digitsVal_append_singleton, ih (n / 10) (by omega),
        digitChar_val (Nat.mod_lt _ (by omega))]
      omega

theorem digitsVal_strNat (n : Nat) : digitsVal (strNat n).toList = n :=
  digitsVal_natDigitsAux (n + 1) n (by omega)

theorem isSubstrL_of_isPrefix {n h : List Char} (hp : n <+: h) : isSubstrL n h = true := by
  cases h with
  | nil =>
    rw [List.prefix_nil] at hp
    subst hp
    rfl
  | cons c t =>
    simp only [isSubstrL, Bool.or_eq_true]
    exact Or.inl (List.isPrefixOf_iff_prefix.mpr hp)

theorem pjoin_isPrefix (a b : String) (hb : b.toList.head? ≠ some '/') :
    a.toList <+: (pjoin a b).toList := by
  unfold pjoin
  rw [if_neg hb]
  by_cases h2 : a = "" ∨ a.toList.getLast? = some '/'
  · rw [if_pos h2, strToList_append]
    exact List.prefix_append _ _
  · rw [if_neg h2, strToList_append, strToList_append]
    exact (List.prefix_append _ _).trans (List.prefix_append _ _)

theorem pjoin_getLast (a b : String) (hb : b.toList ≠ []) :
    (pjoin a b).toList.getLast? = b.toList.getLast? := by
  unfold pjoin
  by_cases h1 : b.toList.head? = some '/'
  · rw [if_pos h1]
  · rw [if_neg h1]
    by_cases h2 : a = "" ∨ a.toList.getLast? = some '/'
    · rw [if_pos h2, strToList_append, List.getLast?_append_of_ne_nil _ hb]
    · rw [if_neg h2, strToList_append, List.getLast?_append_of_ne_nil _ hb]

theorem pjoin_eq (a b : String) (ha : a ≠ "") (ha2 : a.toList.getLast? ≠ some '/')
    (hb : b.toList.head? ≠ some '/') : pjoin a b = a ++ "/" ++ b := by
  unfold pjoin
  rw [if_neg hb, if_neg (not_or.mpr ⟨ha, ha2⟩)]

theorem dropWhile_cons_pos {α : Type} {p : α → Bool} {a : α} {l : List α}
    (h : p a = true) : (a :: l).dropWhile p = l.dropWhile p := by
  simp [List.dropWhile_cons, h]

theorem mem_of_head? {α : Type} {l : List α} {x : α} (h : l.head? = some x) : x ∈ l := by
  cases l with
  | nil => exact Option.noConfusion h
  | cons a t =>
    simp only [List.head?_cons, Option.some.injEq] at h
    subst h
    exact List.mem_cons_self a t

theorem head?_dropWhile {α : Type} {p : α → Bool} :
    ∀ {l : List α} {x : α}, (l.dropWhile p).head? = some x → p x = false := by
  intro l
  induction l with
  | nil => intro x h; exact Option.noConfusion h
  | cons a t ih =>
    intro x h
    by_cases hp : p a = true
    · rw [dropWhile_cons_pos hp] at h
      exact ih h
    · have hp' : p a = false := by simpa using hp
      rw [dropWhile_cons_neg hp'] at h
      simp only [List.head?_cons, Option.some.injEq] at h
      subst h
      exact hp'

/-- `os.path.split` on a path of the shape `dir/base` with `base` free of
separators and `dir` nonempty without a trailing separator recovers the two
components. -/
theorem splitPathL_append {a b : List Char} (ha0 : a ≠ [])
    (ha : a.getLast? ≠ some '/') (hb : ∀ c ∈ b, (c != '/') = true) :
    splitPathL (a ++ '/' :: b) = (a, b) := by
  obtain ⟨x, xs, hax⟩ : ∃ x xs, a.reverse = x :: xs := by
    cases har : a.reverse with
    | nil =>
      exact absurd (by simpa using congrArg List.reverse har) ha0
    | cons x xs => exact ⟨x, xs, rfl⟩
  have hc : a.getLast? = some x := by
    rw [← List.head?_reverse, hax]
    rfl
  have hcm : x ∈ a := List.mem_of_mem_getLast? hc
  have hcne : x ≠ '/' := fun he => ha (he ▸ hc)
  have hrev : (a ++ '/' :: b).reverse = b.reverse ++ '/' :: a.reverse := by simp
  have hball : ∀ c ∈ b.reverse, (c != '/') = true :=
    fun c hcr => hb c (List.mem_reverse.mp hcr)
  have htk : (b.reverse ++ '/' :: a.reverse).takeWhile (fun c => c != '/') = b.reverse := by
    rw [takeWhile_append_all hball, takeWhile_cons_neg (by simp)]
    simp
  have hdw : (b.reverse ++ '/' :: a.reverse).dropWhile (fun c => c != '/') = '/' :: a.reverse := by
    rw [dropWhile_append_all hball, dropWhile_cons_neg (by simp)]
  have hnall : ¬ ((('/' :: a.reverse).reverse).all (fun c => c == '/') = true) := by
    intro hall
    rw [List.all_eq_true] at hall
    exact hcne (by simpa using hall x (by simp [hcm]))
  unfold splitPathL
  rw [hrev, htk, hdw]
  simp only [List.reverse_reverse]
  rw [if_neg hnall]
  refine Prod.ext ?_ rfl
  show (List.dropWhile (fun c => c == '/') ('/' :: a.reverse)).reverse = a
  rw [dropWhile_cons_pos (by simp), hax,
    dropWhile_cons_neg (by simpa using hcne), ← hax, List.reverse_reverse]

/-- `os.path.splitext` always splits a basename into stem and extension whose
concatenation is the basename again. -/
theorem splitextL_eq_append (cs : List Char) : (splitextL cs).1 ++ (splitextL cs).2 = cs := by
  unfold splitextL
  by_cases h1 : (cs.reverse.dropWhile (fun c => c != '.')).reverse = []
  · simp [h1]
  · rw [if_neg h1]
    obtain ⟨x, xs, hax⟩ : ∃ x xs, cs.reverse.dropWhile (fun c => c != '.') = x :: xs := by
      cases har : cs.reverse.dropWhile (fun c => c != '.') with
      | nil => exact absurd (by simp [har]) h1
      | cons x xs => exact ⟨x, xs, rfl⟩
    have hx : x = '.' := by
      have := head?_dropWhile (p := fun c => c != '.') (l := cs.reverse) (x := x)
        (by rw [hax]; rfl)
      simpa using this
    subst hx
    by_cases h2 : ((('.' : Char) :: xs).reverse.dropLast).all (fun c => c == '.') = true
    · rw [hax, if_pos h2]
      simp
    · rw [hax, if_neg h2]
      have hsplit : cs.reverse.takeWhile (fun c => c != '.')
          ++ (('.' : Char) :: xs) = cs.reverse := by
        rw [← hax]
        exact List.takeWhile_append_dropWhile _ _
      have : (('.' : Char) :: xs).reverse.dropLast = xs.reverse := by
        simp [List.reverse_cons, List.dropLast_concat]
      rw [this]
      have hcs : xs.reverse ++ '.' :: (cs.reverse.takeWhile (fun c => c != '.')).reverse
          = cs := by
        have := congrArg List.reverse hsplit
        simpa [List.reverse_append] using this
      simpa using hcs

/-- `os.path.splitext` on a basename of the shape `stem.ext` with a dot-free
extension and a stem that is not all dots recovers the two components. -/
theorem splitextL_append {f e : List Char} (hf : ¬ (f.all (fun c => c == '.') = true))
    (he : ∀ c ∈ e, (c != '.') = true) :
    splitextL (f ++ '.' :: e) = (f, '.' :: e) := by
  have hrev : (f ++ '.' :: e).reverse = e.reverse ++ '.' :: f.reverse := by simp
  have hball : ∀ c ∈ e.reverse, (c != '.') = true :=
    fun c hc => he c (List.mem_reverse.mp hc)
  have htk : (e.reverse ++ '.' :: f.reverse).takeWhile (fun c => c != '.') = e.reverse := by
    rw [takeWhile_append_all hball, takeWhile_cons_neg (by simp)]
    simp
  have hdw : (e.reverse ++ '.' :: f.reverse).dropWhile (fun c => c != '.') = '.' :: f.reverse := by
    rw [dropWhile_append_all hball, dropWhile_cons_neg (by simp)]
  unfold splitextL
  rw [hrev, htk, hdw]
  simp only [List.reverse_cons, List.reverse_reverse]
  rw [if_neg (by simp : ¬(f ++ ['.'] = [])), List.dropLast_concat, if_neg hf]

/-- The renamer's trailing-version pattern matches `s(ds)` for a nonempty
digit group `ds`, capturing its value. -/
theorem versionSuffix_append (s ds : List Char) (hds : ds ≠ [])
    (hdig : ∀ c ∈ ds, c.isDigit = true) :
    versionSuffix (s ++ ('(' :: (ds ++ [')']))) = some (digitsVal ds) := by
  have hrev : (s ++ ('(' :: (ds ++ [')']))).reverse = ')' :: (ds.reverse ++ '(' :: s.reverse) := by
    simp
  have hball : ∀ c ∈ ds.reverse, Char.isDigit c = true :=
    fun c hc => hdig c (List.mem_reverse.mp hc)
  have htk : (ds.reverse ++ '(' :: s.reverse).takeWhile Char.isDigit = ds.reverse := by
    rw [takeWhile_append_all hball, takeWhile_cons_neg (by decide)]
    simp
  have hdw : (ds.reverse ++ '(' :: s.reverse).dropWhile Char.isDigit = '(' :: s.reverse := by
    rw [dropWhile_append_all hball, dropWhile_cons_neg (by decide)]
  unfold versionSuffix
  rw [hrev]
  rw [if_pos (show ((')' : Char) :: (ds.reverse ++ '(' :: s.reverse)).head? = some ')' from rfl)]
  simp only [List.tail_cons]
  rw [htk, hdw]
  rw [if_neg (by simpa using hds), if_pos (show ((('(' : Char) :: s.reverse)).head? = some '(' from rfl)]
  simp

/-- `split('(')[0]` on a basename whose first opening parenthesis starts the
remainder. -/
theorem takeWhile_ne_paren {s rest : List Char} (hs : ∀ c ∈ s, (c != '(') = true) :
    (s ++ ('(' :: rest)).takeWhile (fun c => c != '(') = s := by
  rw [takeWhile_append_all hs, takeWhile_cons_neg (by simp)]
  simp

theorem string_eq_of_toList {a b : String} (h : a.toList = b.toList) : a = b := by
  cases a
  cases b
  simp only [String.toList] at h
  rw [h]

theorem string_toList_ne_nil {s : String} (h : s ≠ "") : s.toList ≠ [] := by
  intro hl
  exact h (string_eq_of_toList (by simpa using hl))

/-- `rename_copy` on a path `dir/base` with a separator-free basename keeps
the directory part: the result is `dir/newbase` for a separator-free new
basename. -/
theorem rename_copy_keeps_dir {a nm : List Char} (ha0 : a ≠ [])
    (ha : a.getLast? ≠ some '/') (hnm : ∀ c ∈ nm, c ≠ '/') :
    ∃ nb : List Char, (∀ c ∈ nb, c ≠ '/') ∧
      rename_copy (String.mk (a ++ '/' :: nm)) = String.mk (a ++ '/' :: nb) := by
  have hnm' : ∀ c ∈ nm, (c != '/') = true := fun c hc => bne_iff_ne.mpr (hnm c hc)
  have h1 : splitPathL (String.mk (a ++ '/' :: nm)).toList = (a, nm) :=
    splitPathL_append ha0 ha hnm'
  have h1a : (splitPathL (String.mk (a ++ '/' :: nm)).toList).1 = a := by rw [h1]
  have h1b : (splitPathL (String.mk (a ++ '/' :: nm)).toList).2 = nm := by rw [h1]
  have hfe1m : ∀ c ∈ (splitextL nm).1, c ∈ nm := fun c hc => by
    rw [← splitextL_eq_append nm]
    exact List.mem_append_left _ hc
  have hfe2m : ∀ c ∈ (splitextL nm).2, c ∈ nm := fun c hc => by
    rw [← splitextL_eq_append nm]
    exact List.mem_append_right _ hc
  refine ⟨((if (versionSuffix (splitextL nm).1).isSome
        then (splitextL nm).1.takeWhile (fun c => c != '(')
        else (splitextL nm).1)
      ++ '(' :: ((strNat (((versionSuffix (splitextL nm).1).map (fun m => m + 1)).getD 1)).toList
        ++ [')'])) ++ (splitextL nm).2, ?_, ?_⟩
  · intro c hc
    simp only [List.mem_append, List.mem_cons, List.mem_singleton, List.not_mem_nil,
      or_false] at hc
    rcases hc with (hc | hc | hc | hc) | hc
    · split at hc
      · exact hnm c (hfe1m c (List.takeWhile_subset _ hc))
      · exact hnm c (hfe1m c hc)
    · subst hc; decide
    · intro he
      subst he
      exact absurd (strNat_digits _ _ hc) (by decide)
    · subst hc; decide
    · exact hnm c (hfe2m c hc)
  · simp only [rename_copy]
    rw [h1a, h1b]
    have hhead : (String.mk (((if (versionSuffix (splitextL nm).1).isSome
        then (splitextL nm).1.takeWhile (fun c => c != '(')
        else (splitextL nm).1)
      ++ '(' :: ((strNat (((versionSuffix (splitextL nm).1).map (fun m => m + 1)).getD 1)).toList
        ++ [')'])) ++ (splitextL nm).2)).toList.head? ≠ some '/' := by
      intro hh
      have hmem : ('/' : Char) ∈ ((if (versionSuffix (splitextL nm).1).isSome
          then (splitextL nm).1.takeWhile (fun c => c != '(')
          else (splitextL nm).1)
        ++ '(' :: ((strNat (((versionSuffix (splitextL nm).1).map
            (fun m => m + 1)).getD 1)).toList
          ++ [')'])) ++ (splitextL nm).2 := mem_of_head? hh
      simp only [List.mem_append, List.mem_cons, List.mem_singleton, List.not_mem_nil,
        or_false] at hmem
      rcases hmem with (hc | hc | hc | hc) | hc
      · split at hc
        · exact hnm '/' (hfe1m '/' (List.takeWhile_subset _ hc)) rfl
        · exact hnm '/' (hfe1m '/' hc) rfl
      · exact absurd hc (by decide)
      · exact absurd (strNat_digits _ _ hc) (by decide)
      · exact absurd hc (by decide)
      · exact hnm '/' (hfe2m '/' hc) rfl
    rw [pjoin_eq _ _ (string_ne_empty_of_toList ha0) ha hhead]
    apply string_eq_of_toList
    rw [strToList_append, strToList_append]
    simp

/-- C5 amended: for a filename `dir/stem…(n).ext` whose base name ends in a
numeric `(n)` suffix, `rename_copy` strips everything from the FIRST opening
parenthesis of the base name onward (so any part after an earlier parenthesis
is lost, not kept) and returns the same directory joined with that prefix
followed by `(n+1)` and the extension; when the base name has no parenthesis
other than the suffix (`mid = ""`) this coincides with stripping exactly the
trailing suffix. -/
theorem rename_copy_bumps_numeric_suffix (dir stem mid ext : String) (n : Nat)
    (hdir0 : dir ≠ "") (hdir : dir.toList.getLast? ≠ some '/')
    (hstem : ∀ c ∈ stem.toList, c ≠ '(' ∧ c ≠ '/')
    (hmid : mid = "" ∨ mid.toList.head? = some '(')
    (hmid2 : ∀ c ∈ mid.toList, c ≠ '/')
    (hext : ∀ c ∈ ext.toList, c ≠ '.' ∧ c ≠ '/') :
    rename_copy (dir ++ "/" ++ stem ++ mid ++ "(" ++ strNat n ++ ")." ++ ext)
      = dir ++ "/" ++ (stem ++ "(" ++ strNat (n + 1) ++ ")." ++ ext) := by
  have hdir0' : dir.toList ≠ [] := string_toList_ne_nil hdir0
  have hToList : (dir ++ "/" ++ stem ++ mid ++ "(" ++ strNat n ++ ")." ++ ext).toList
      = dir.toList ++ '/' :: (stem.toList ++ (mid.toList ++ ('(' :: ((strNat n).toList
        ++ (')' :: ('.' :: ext.toList)))))) := by
    simp only [strToList_append, show ("/" : String).toList = ['/'] from rfl,
      show ("(" : String).toList = ['('] from rfl,
      show (")." : String).toList = [')', '.'] from rfl]
    simp [List.append_assoc]
  have hBall : ∀ c ∈ stem.toList ++ (mid.toList ++ ('(' :: ((strNat n).toList
      ++ (')' :: ('.' :: ext.toList))))), (c != '/') = true := by
    intro c hc
    refine bne_iff_ne.mpr ?_
    simp only [List.mem_append, List.mem_cons] at hc
    rcases hc with hc | hc | hc | hc | hc | hc | hc
    · exact (hstem c hc).2
    · exact hmid2 c hc
    · subst hc; decide
    · intro he; subst he; exact absurd (strNat_digits _ _ hc) (by decide)
    · subst hc; decide
    · subst hc; decide
    · exact (hext c hc).2
  have h1 : splitPathL (dir.toList ++ '/' :: (stem.toList ++ (mid.toList
      ++ ('(' :: ((strNat n).toList ++ (')' :: ('.' :: ext.toList)))))))
      = (dir.toList, stem.toList ++ (mid.toList ++ ('(' :: ((strNat n).toList
        ++ (')' :: ('.' :: ext.toList)))))) :=
    splitPathL_append hdir0' hdir hBall
  have hBF : stem.toList ++ (mid.toList ++ ('(' :: ((strNat n).toList
      ++ (')' :: ('.' :: ext.toList)))))
      = ((stem.toList ++ mid.toList) ++ ('(' :: ((strNat n).toList ++ [')'])))
        ++ ('.' :: ext.toList) := by
    simp [List.append_assoc]
  have hF : ¬ ((((stem.toList ++ mid.toList) ++ ('(' :: ((strNat n).toList ++ [')']))).all
      (fun c => c == '.')) = true) := by
    intro hall
    rw [List.all_eq_true] at hall
    have := hall ')' (by simp)
    exact absurd this (by decide)
  have h2 : splitextL (stem.toList ++ (mid.toList ++ ('(' :: ((strNat n).toList
      ++ (')' :: ('.' :: ext.toList))))))
      = ((stem.toList ++ mid.toList) ++ ('(' :: ((strNat n).toList ++ [')'])),
        '.' :: ext.toList) := by
    rw [hBF]
    exact splitextL_append hF (fun c hc => bne_iff_ne.mpr (hext c hc).1)
  have h3 : versionSuffix ((stem.toList ++ mid.toList) ++ ('(' :: ((strNat n).toList ++ [')'])))
      = some n := by
    rw [versionSuffix_append _ _ (strNat_toList_ne_nil n) (strNat_digits n), digitsVal_strNat]
  have hstem' : ∀ c ∈ stem.toList, (c != '(') = true :=
    fun c hc => bne_iff_ne.mpr (hstem c hc).1
  have h4 : (((stem.toList ++ mid.toList) ++ ('(' :: ((strNat n).toList ++ [')'])))).takeWhile
      (fun c => c != '(') = stem.toList := by
    have key : ∀ ml : List Char, ml = [] ∨ (∃ m2, ml = '(' :: m2) →
        (((stem.toList ++ ml) ++ ('(' :: ((strNat n).toList ++ [')'])))).takeWhile
          (fun c => c != '(') = stem.toList := by
      intro ml
      exact fun hml => hml.elim
        (fun hnil => by
          subst hnil
          rw [List.append_nil]
          exact takeWhile_ne_paren hstem')
        (fun hex => by
          obtain ⟨m2, hml2⟩ := hex
          subst hml2
          rw [show (stem.toList ++ ('(' :: m2)) ++ ('(' :: ((strNat n).toList ++ [')']))
              = stem.toList ++ ('(' :: (m2 ++ ('(' :: ((strNat n).toList ++ [')']))))
            from by simp [List.append_assoc]]
          exact takeWhile_ne_paren hstem')
    refine key mid.toList ?_
    rcases hmid with hm | hm
    · left
      rw [hm]
      rfl
    · right
      cases hmt : mid.toList with
      | nil => rw [hmt] at hm; exact Option.noConfusion hm
      | cons c m2 =>
        rw [hmt] at hm
        simp only [List.head?_cons, Option.some.injEq] at hm
        exact ⟨m2, by rw [hm]⟩
  have h1a : (splitPathL (dir.toList ++ '/' :: (stem.toList ++ (mid.toList
      ++ ('(' :: ((strNat n).toList ++ (')' :: ('.' :: ext.toList)))))))).1 = dir.toList := by
    rw [h1]
  have h1b : (splitPathL (dir.toList ++ '/' :: (stem.toList ++ (mid.toList
      ++ ('(' :: ((strNat n).toList ++ (')' :: ('.' :: ext.toList)))))))).2
      = stem.toList ++ (mid.toList ++ ('(' :: ((strNat n).toList
        ++ (')' :: ('.' :: ext.toList))))) := by
    rw [h1]
  have h2a : (splitextL (stem.toList ++ (mid.toList ++ ('(' :: ((strNat n).toList
      ++ (')' :: ('.' :: ext.toList))))))).1
      = (stem.toList ++ mid.toList) ++ ('(' :: ((strNat n).toList ++ [')'])) := by
    rw [h2]
  have h2b : (splitextL (stem.toList ++ (mid.toList ++ ('(' :: ((strNat n).toList
      ++ (')' :: ('.' :: ext.toList))))))).2 = '.' :: ext.toList := by
    rw [h2]
  simp only [rename_copy]
  rw [hToList, h1a, h1b, h2a, h2b, h3]
  simp only [Option.isSome_some, Option.map_some', Option.getD_some, if_true, h4]
  have hhead : (String.mk ((stem.toList ++ ('(' :: ((strNat (n + 1)).toList ++ [')'])))
      ++ ('.' :: ext.toList))).toList.head? ≠ some '/' := by
    intro hh
    have hmem : ('/' : Char) ∈ (stem.toList ++ ('(' :: ((strNat (n + 1)).toList ++ [')'])))
        ++ ('.' :: ext.toList) := mem_of_head? hh
    simp only [List.mem_append, List.mem_cons, List.mem_singleton, List.not_mem_nil,
      or_false] at hmem
    rcases hmem with (hc | hc | hc | hc) | (hc | hc)
    · exact (hstem '/' hc).2 rfl
    · exact absurd hc (by decide)
    · exact absurd (strNat_digits _ _ hc) (by decide)
    · exact absurd hc (by decide)
    · exact absurd hc (by decide)
    · exact (hext '/' hc).2 rfl
  rw [show String.mk dir.toList = dir from rfl]
  rw [pjoin_eq _ _ hdir0 hdir hhead]
  apply string_eq_of_toList
  rw [strToList_append, strToList_append, strToList_append]
  simp only [strToList_append, show ("/" : String).toList = ['/'] from rfl,
    show ("(" : String).toList = ['('] from rfl,
    show (")." : String).toList = [')', '.'] from rfl]
  simp [List.append_assoc]

/-! Lemmas about `createSubpaths`. -/

theorem fsFind_cons (fs : FSt) (p q : String) (e : Entry) :
    fsFind ((p, e) :: fs) q = if p == q then some e else fsFind fs q := by
  by_cases h : p == q <;> simp [fsFind, List.find?, h]

theorem createSubpaths_snd :
    ∀ (l : List String) (fs : FSt) (p : String) (r : FSt × String),
      createSubpaths fs p l = .ok r → r.2 = l.foldl pjoin p := by
  intro l
  induction l with
  | nil =>
    intro fs p r h
    simp only [createSubpaths] at h
    cases h
    rfl
  | cons s rest ih =>
    intro fs p r h
    simp only [createSubpaths] at h
    by_cases hd : fsIsDir fs (pjoin p s)
    · rw [if_pos hd] at h
      exact ih _ _ _ h
    · rw [if_neg hd] at h
      cases hf : fsFind fs (pjoin p s) with
      | some e => rw [hf] at h; exact Except.noConfusion h
      | none => rw [hf] at h; exact ih _ _ _ h

theorem createSubpaths_preserves :
    ∀ (l : List String) (fs : FSt) (p : String) (r : FSt × String),
      createSubpaths fs p l = .ok r →
      ∀ q e, fsFind fs q = some e → fsFind r.1 q = some e := by
  intro l
  induction l with
  | nil =>
    intro fs p r h q e hq
    simp only [createSubpaths] at h
    cases h
    exact hq
  | cons s rest ih =>
    intro fs p r h q e hq
    simp only [createSubpaths] at h
    by_cases hd : fsIsDir fs (pjoin p s)
    · rw [if_pos hd] at h
      exact ih _ _ _ h q e hq
    · rw [if_neg hd] at h
      cases hf : fsFind fs (pjoin p s) with
      | some e2 => rw [hf] at h; exact Except.noConfusion h
      | none =>
        rw [hf] at h
        refine ih _ _ _ h q e ?_
        rw [fsFind_cons]
        by_cases hpq : pjoin p s == q
        · rw [eq_of_beq hpq] at hf
          rw [hf] at hq
          exact Option.noConfusion hq
        · rw [if_neg hpq]
          exact hq

theorem createSubpaths_idem :
    ∀ (l : List String) (fs : FSt) (p : String) (r : FSt × String),
      createSubpaths fs p l = .ok r → createSubpaths r.1 p l = .ok r := by
  intro l
  induction l with
  | nil =>
    intro fs p r h
    simp only [createSubpaths] at h
    cases h
    rfl
  | cons s rest ih =>
    intro fs p r h
    simp only [createSubpaths] at h ⊢
    by_cases hd : fsIsDir fs (pjoin p s)
    · rw [if_pos hd] at h
      have hfind : fsFind fs (pjoin p s) = some Entry.dir := by
        simpa [fsIsDir] using hd
      have : fsFind r.1 (pjoin p s) = some Entry.dir :=
        createSubpaths_preserves _ _ _ _ h _ _ hfind
      rw [if_pos (by simpa [fsIsDir] using this)]
      exact ih _ _ _ h
    · rw [if_neg hd] at h
      cases hf : fsFind fs (pjoin p s) with
      | some e2 => rw [hf] at h; exact Except.noConfusion h
      | none =>
        rw [hf] at h
        have hself : fsFind ((pjoin p s, Entry.dir) :: fs) (pjoin p s) = some Entry.dir := by
          rw [fsFind_cons, if_pos (by simp)]
        have : fsFind r.1 (pjoin p s) = some Entry.dir :=
          createSubpaths_preserves _ _ _ _ h _ _ hself
        rw [if_pos (by simpa [fsIsDir] using this)]
        exact ih _ _ _ h

theorem except_bind_ok {ε α β : Type} (a : α) (f : α → Except ε β) :
    ((Except.ok a : Except ε α) >>= f) = f a := rfl

theorem except_bind_error {ε α β : Type} (e : ε) (f : α → Except ε β) :
    ((Except.error e : Except ε α) >>= f) = Except.error e := rfl

theorem exists_getLast?_of_ne_nil {l : List Char} (h : l ≠ []) :
    ∃ c, l.getLast? = some c := by
  cases hl : l.getLast? with
  | none => exact absurd (List.getLast?_eq_none_iff.mp hl) h
  | some c => exact ⟨c, rfl⟩

theorem persist_original_eq (rows : List LRecord) (o c t : String) :
    persist_original rows o c t = .ok (rows ++ [⟨o, c, t⟩]) := by
  have hu : originalIndexUnique = false := by decide
  simp [persist_original, sqlInsertPhotoTransfer, hu]

theorem already_copied_append_right {l Δ : List LRecord} {o out : String}
    (h : already_copied l o out = true) : already_copied (l ++ Δ) o out = true := by
  unfold already_copied at h ⊢
  rw [List.any_append, h]
  rfl

theorem already_copied_last (l : List LRecord) (full copy ts out : String)
    (hp : out.toList <+: copy.toList) :
    already_copied (l ++ [⟨full, copy, ts⟩]) full out = true := by
  unfold already_copied
  rw [List.any_append]
  have h2 : ((⟨full, copy, ts⟩ : LRecord).original == full
      && isSubstrL out.toList (⟨full, copy, ts⟩ : LRecord).copy.toList) = true := by
    rw [Bool.and_eq_true]
    exact ⟨beq_self_eq_true full, isSubstrL_of_isPrefix hp⟩
  have h1 : List.any [(⟨full, copy, ts⟩ : LRecord)]
      (fun row => row.original == full && isSubstrL out.toList row.copy.toList) = true := by
    simp only [List.any_cons, List.any_nil, Bool.or_false]
    exact h2
  rw [h1]
  simp

/-- On success, `copy_file` appends exactly one ledger record for the file,
whose copy path has the output root as a string prefix. -/
theorem copy_file_marks (env : Env) (st : St) (full nm : String) (d : DateTime)
    (out : String) (hnm : ∀ c ∈ nm.toList, c ≠ '/')
    (st2 : St) (h : copy_file env st full nm d out = .ok st2) :
    ∃ copy : String, st2.ledger = st.ledger ++ [⟨full, copy, env.nowTs⟩]
      ∧ out.toList <+: copy.toList := by
  cases hg : get_or_create_path st.fs out d with
  | error e =>
    simp only [copy_file] at h
    rw [hg, except_bind_error] at h
    exact Except.noConfusion h
  | ok fp =>
    simp only [copy_file] at h
    rw [hg, except_bind_ok] at h
    have hsnd : fp.2 = pjoin (pjoin (pjoin out (strNat d.year)) (strNat d.month))
        (strNat d.day) := by
      simpa [List.foldl] using createSubpaths_snd _ _ _ _ hg
    have hslash : ('/' : Char).isDigit = false := by decide
    have houtp : out.toList <+: fp.2.toList := by
      rw [hsnd]
      exact ((pjoin_isPrefix out (strNat d.year)
          (head?_ne_of_digits (strNat_digits _) hslash)).trans
        (pjoin_isPrefix _ (strNat d.month)
          (head?_ne_of_digits (strNat_digits _) hslash))).trans
        (pjoin_isPrefix _ (strNat d.day) (head?_ne_of_digits (strNat_digits _) hslash))
    have hlast : fp.2.toList.getLast? ≠ some '/' := by
      rw [hsnd, pjoin_getLast _ _ (strNat_toList_ne_nil d.day)]
      exact getLast?_ne_of_digits (strNat_digits _) hslash
    have hfp2nil : fp.2.toList ≠ [] := by
      intro hn
      obtain ⟨c, hc⟩ := exists_getLast?_of_ne_nil (strNat_toList_ne_nil d.day)
      have hgl : fp.2.toList.getLast? = (strNat d.day).toList.getLast? := by
        rw [hsnd]
        exact pjoin_getLast _ _ (strNat_toList_ne_nil d.day)
      rw [hn, hc] at hgl
      exact Option.noConfusion hgl
    have hfp2ne : fp.2 ≠ "" := string_ne_empty_of_toList hfp2nil
    have hnmhead : nm.toList.head? ≠ some '/' := by
      intro hh
      exact hnm '/' (mem_of_head? hh) rfl
    have hcopy0 : pjoin fp.2 nm = String.mk (fp.2.toList ++ '/' :: nm.toList) := by
      apply string_eq_of_toList
      rw [pjoin_eq _ _ hfp2ne hlast hnmhead, strToList_append, strToList_append]
      simp
    have hprefix : out.toList <+: (if fsExists fp.1 (pjoin fp.2 nm)
        then rename_copy (pjoin fp.2 nm) else pjoin fp.2 nm).toList := by
      split
      · rw [hcopy0]
        obtain ⟨nb, hnb, heq⟩ := rename_copy_keeps_dir hfp2nil hlast hnm
        rw [heq]
        exact houtp.trans ⟨'/' :: nb, rfl⟩
      · exact houtp.trans (pjoin_isPrefix _ _ hnmhead)
    cases hc2 : copy2 env fp.1 full (if fsExists fp.1 (pjoin fp.2 nm)
        then rename_copy (pjoin fp.2 nm) else pjoin fp.2 nm) with
    | error e =>
      rw [hc2, except_bind_error] at h
      exact Except.noConfusion h
    | ok fs2 =>
      rw [hc2, except_bind_ok] at h
      rw [persist_original_eq, except_bind_ok] at h
      refine ⟨_, ?_, hprefix⟩
      injection h with h2
      rw [← h2]

/-- On success, one iteration of the walk loop leaves the ledger an extension
of what it was, and afterwards `already_copied` answers true for the file just
visited. -/
theorem processOne_marks (env : Env) (out : String) (st : St) (f : String × String)
    (hf : ∀ c ∈ f.2.toList, c ≠ '/')
    (r : St × Bool) (h : processOne env out st f = .ok r) :
    (∃ Δ, r.1.ledger = st.ledger ++ Δ)
      ∧ already_copied r.1.ledger (pjoin f.1 f.2) out = true := by
  simp only [processOne] at h
  by_cases hac : already_copied st.ledger (pjoin f.1 f.2) out = true
  · rw [if_pos hac] at h
    injection h with h2
    subst h2
    exact ⟨⟨[], by simp⟩, hac⟩
  · rw [if_neg hac] at h
    cases ho : original_date env (pjoin f.1 f.2) with
    | error e =>
      rw [ho, except_bind_error] at h
      exact Except.noConfusion h
    | ok rd =>
      rw [ho, except_bind_ok] at h
      cases hcf : copy_file env st (pjoin f.1 f.2) f.2 rd.2 out with
      | error e =>
        rw [hcf, except_bind_error] at h
        exact Except.noConfusion h
      | ok st3 =>
        rw [hcf, except_bind_ok] at h
        injection h with h2
        subst h2
        obtain ⟨copy, hl, hp⟩ := copy_file_marks env st (pjoin f.1 f.2) f.2 rd.2 out hf st3 hcf
        refine ⟨⟨[⟨pjoin f.1 f.2, copy, env.nowTs⟩], hl⟩, ?_⟩
        rw [show (st3, true).1 = st3 from rfl, hl]
        exact already_copied_last _ _ _ _ _ hp

/-- After a successful walk over `files`, the ledger has only grown, and
`already_copied` answers true for every walked file. -/
theorem processFiles_marks (env : Env) (out : String) :
    ∀ (files : List (String × String)) (st : St) (res : St × Nat × Nat),
      (∀ f ∈ files, ∀ c ∈ f.2.toList, c ≠ '/') →
      processFiles env out files st = .ok res →
      (∃ Δ, res.1.ledger = st.ledger ++ Δ)
        ∧ ∀ f ∈ files, already_copied res.1.ledger (pjoin f.1 f.2) out = true := by
  intro files
  induction files with
  | nil =>
    intro st res hn h
    simp only [processFiles] at h
    injection h with h2
    subst h2
    exact ⟨⟨[], by simp⟩, by simp⟩
  | cons f rest ih =>
    intro st res hn h
    simp only [processFiles] at h
    cases hp1 : processOne env out st f with
    | error e =>
      rw [hp1, except_bind_error] at h
      exact Except.noConfusion h
    | ok sb =>
      rw [hp1, except_bind_ok] at h
      cases hp2 : processFiles env out rest sb.1 with
      | error e =>
        rw [hp2, except_bind_error] at h
        exact Except.noConfusion h
      | ok r2 =>
        rw [hp2, except_bind_ok] at h
        injection h with h2
        obtain ⟨hext1, hmark1⟩ := processOne_marks env out st f (hn f (by simp)) sb hp1
        obtain ⟨hext2, hmarks2⟩ := ih sb.1 r2 (fun g hg => hn g (by simp [hg])) hp2
        have hres1 : res.1 = r2.1 := by rw [← h2]
        constructor
        · obtain ⟨d1, hd1⟩ := hext1
          obtain ⟨d2, hd2⟩ := hext2
          exact ⟨d1 ++ d2, by rw [hres1, hd2, hd1, List.append_assoc]⟩
        · intro g hg
          rcases List.mem_cons.mp hg with hg | hg
          · subst hg
            obtain ⟨d2, hd2⟩ := hext2
            rw [hres1, hd2]
            exact already_copied_append_right hmark1
          · rw [hres1]
            exact hmarks2 g hg

/-- When every walked file is already marked in the ledger, the walk changes
nothing: same state back, every file counted, zero files processed. -/
theorem processFiles_skips (env : Env) (out : String) :
    ∀ (files : List (String × String)) (st : St),
      (∀ f ∈ files, already_copied st.ledger (pjoin f.1 f.2) out = true) →
      processFiles env out files st = .ok (st, files.length, 0) := by
  intro files
  induction files with
  | nil => intro st _; rfl
  | cons f rest ih =>
    intro st hn
    have h1 : processOne env out st f = .ok (st, false) := by
      simp only [processOne]
      rw [if_pos (hn f (by simp))]
    simp only [processFiles]
    rw [h1, except_bind_ok]
    rw [ih st (fun g hg => hn g (by simp [hg])), except_bind_ok]
    simp
    rfl

/-- C4: the collision namer on the spec's three examples: a trailing numeric
suffix is bumped, an unsuffixed name gains `(1)`, and a non-numeric
parenthetical is treated as no version suffix. -/
theorem rename_copy_examples :
    rename_copy "img(3).png" = "img(4).png"
      ∧ rename_copy "img.png" = "img(1).png"
      ∧ rename_copy "img(abc).png" = "img(abc)(1).png" := by
  refine ⟨?_, ?_, ?_⟩ <;> rfl

/-- C1: a third distinct `photo.jpg` arriving where `photo.jpg` and
`photo(1).jpg` already exist is NOT written to `photo(2).jpg`: `copy_file`
applies the collision namer once, without re-checking existence, lands on
`photo(1).jpg`, and `shutil.copy2` silently replaces the file that was there
(content 2 becomes content 3); no `photo(2).jpg` is ever created. -/
theorem copy_file_third_collision_overwrites :
    (copy_file envCollide stCollide "/in/c/photo.jpg" "photo.jpg"
        ⟨2001, 11, 19, 0, 0, 0⟩ "/out").map
      (fun st => (fsFind st.fs "/out/2001/11/19/photo(1).jpg",
        fsFind st.fs "/out/2001/11/19/photo(2).jpg"))
      = .ok (some (Entry.file 3), none)
    ∧ fsFind stCollide.fs "/out/2001/11/19/photo(1).jpg" = some (Entry.file 2) := by
  exact ⟨rfl, rfl⟩

/-- C3 counterexample: a per-file failure is NOT caught — when reading the
first file raises, `process_path` propagates the error and aborts the whole
run, so the second file is never reached (the claim says the run continues to
the next file). -/
theorem process_path_aborts_on_per_file_error :
    process_path envAbort [("/in", "a.jpg"), ("/in", "b.jpg")] "/out"
      ⟨[], []⟩ = .error (.ioError "/in/a.jpg") := by
  rfl

/-- C3 amended: an error in the per-file body (date resolution, directory
creation, copy, or ledger insert) propagates out of the walk loop unchanged:
there is no try/except in `process_path`, so the run aborts and later files
are not processed. -/
theorem per_file_error_propagates (env : Env) (out : String) (st : St)
    (f : String × String) (rest : List (String × String)) (e : Err)
    (h : processOne env out st f = .error e) :
    processFiles env out (f :: rest) st = .error e := by
  simp only [processFiles, h]
  rfl

/-- Witness for `per_file_error_propagates` at a concrete failing run. -/
theorem per_file_error_propagates_witness :
    processFiles envAbort "/out" [("/in", "a.jpg"), ("/in", "c.jpg")]
      ⟨[], []⟩ = .error (.ioError "/in/a.jpg") :=
  per_file_error_propagates envAbort "/out" ⟨[], []⟩ ("/in", "a.jpg")
    [("/in", "c.jpg")] (.ioError "/in/a.jpg") rfl

/-- C5 counterexample: on a base name with an earlier parenthetical,
`split('(')[0]` strips from the FIRST opening parenthesis, so the earlier
parenthetical is lost: `a(b)(2).png` becomes `a(3).png`, not the claimed
`a(b)(3).png`. -/
theorem rename_copy_strips_from_first_paren_cex :
    rename_copy "/d/a(b)(2).png" = "/d/a(3).png"
      ∧ ("/d/a(3).png" : String) ≠ "/d/a(b)(3).png" := by
  exact ⟨rfl, by decide⟩

/-- C6 counterexample: `already_copied` tests substring containment, not
"falls under": it answers true for a record whose copy path merely contains
the output root's characters (`/backup/outdated/f.jpg` against root `/out`),
even though no record's copy path lies inside the root. -/
theorem already_copied_substring_cex :
    already_copied ledgerOutside "/in/f.jpg" "/out" = true
      ∧ ledgerOutside.all (fun r => !(fallsUnder "/out" r.copy)) = true := by
  exact ⟨rfl, rfl⟩

/-- C10: the schema's only index on `original` is non-unique and the primary
key is the synthetic `id`, so `persist_original` never raises a duplicate-key
error: it appends its row and commits, and a second insert with the same
`originalPath` also succeeds, leaving two records with that original in the
table. -/
theorem persist_original_no_duplicate_key (rows : List LRecord)
    (o c t c2 t2 : String) :
    persist_original rows o c t = .ok (rows ++ [⟨o, c, t⟩])
      ∧ Except.bind (persist_original rows o c t)
          (fun rs => persist_original rs o c2 t2)
        = .ok ((rows ++ [⟨o, c, t⟩]) ++ [⟨o, c2, t2⟩]) := by
  have hu : originalIndexUnique = false := by decide
  constructor
  · simp [persist_original, sqlInsertPhotoTransfer, hu]
  · simp [persist_original, sqlInsertPhotoTransfer, hu, Except.bind]

/-- C6 amended: `already_copied` answers true exactly when some ledger record
for the given original has the output root as a SUBSTRING of its copy path;
records whose copy path falls under the root are a special case of that, so
every spec-true query answers true, but the converse fails (see the
counterexample). -/
theorem already_copied_iff_substring (l : List LRecord) (o out : String) :
    (already_copied l o out = true ↔
      ∃ r ∈ l, r.original = o ∧ isSubstrL out.toList r.copy.toList = true)
    ∧ ((∃ r ∈ l, r.original = o ∧ fallsUnder out r.copy = true) →
      already_copied l o out = true) := by
  constructor
  · simp [already_copied, List.any_eq_true, Bool.and_eq_true, beq_iff_eq]
  · rintro ⟨r, hr, hor, hf⟩
    simp only [already_copied, List.any_eq_true]
    refine ⟨r, hr, ?_⟩
    simp only [Bool.and_eq_true, beq_iff_eq]
    refine ⟨hor, ?_⟩
    unfold fallsUnder at hf
    have hp : (out ++ "/").toList <+: r.copy.toList := List.isPrefixOf_iff_prefix.mp hf
    rw [strToList_append] at hp
    exact isSubstrL_of_isPrefix ((List.prefix_append _ _).trans hp)

/-- Witness for `already_copied_iff_substring` at a record lying inside the
output root. -/
theorem already_copied_iff_substring_witness :
    already_copied [⟨"/in/g.jpg", "/out/2001/11/19/g.jpg", "T"⟩] "/in/g.jpg" "/out" = true :=
  (already_copied_iff_substring [⟨"/in/g.jpg", "/out/2001/11/19/g.jpg", "T"⟩]
      "/in/g.jpg" "/out").2
    ⟨⟨"/in/g.jpg", "/out/2001/11/19/g.jpg", "T"⟩, by simp, rfl, by decide⟩

/-- C7: when the file can be opened, `original_date` returns
`(true, parsedDate)` exactly on a present EXIF tag that parses against
`YYYY:MM:DD HH:MM:SS`, and `(false, the modification time)` when the tag is
absent or malformed — so a file with no extractable capture date is dated by
its modification time, never by the current wall-clock date (the result does
not depend on any notion of "now"). -/
theorem original_date_spec (env : Env) (f : String) (h : env.openErr f = false) :
    (∀ raw d, env.exifTag f = some raw → parseExifDate raw = some d →
      original_date env f = .ok (true, d))
    ∧ (env.exifTag f = none → original_date env f = .ok (false, env.mtime f))
    ∧ (∀ raw, env.exifTag f = some raw → parseExifDate raw = none →
      original_date env f = .ok (false, env.mtime f)) := by
  refine ⟨fun raw d h1 h2 => ?_, fun h1 => ?_, fun raw h1 h2 => ?_⟩
  · simp [original_date, h, h1, h2]
  · simp [original_date, h, h1]
  · simp [original_date, h, h1, h2]

/-- Witness for `original_date_spec` on a parsing tag, an absent tag and a
malformed tag. -/
theorem original_date_spec_witness :
    original_date envExif "/in/p.jpg" = .ok (true, ⟨2001, 11, 19, 10, 20, 30⟩)
      ∧ original_date envRerun "/in/p.jpg" = .ok (false, ⟨2001, 11, 19, 0, 0, 0⟩)
      ∧ original_date { envExif with exifTag := fun _ => some "2001:13:40 99:99:99" }
          "/in/p.jpg" = .ok (false, ⟨1999, 1, 2, 3, 4, 5⟩) := by
  refine ⟨?_, ?_, ?_⟩
  · exact (original_date_spec envExif "/in/p.jpg" rfl).1
      "2001:11:19 10:20:30" ⟨2001, 11, 19, 10, 20, 30⟩ rfl (by rfl)
  · exact (original_date_spec envRerun "/in/p.jpg" rfl).2.1 rfl
  · exact (original_date_spec _ "/in/p.jpg" rfl).2.2
      "2001:13:40 99:99:99" rfl (by rfl)

/-- C8: on success, the path `get_or_create_path` returns is the output root
extended by `str(year)/str(month)/str(day)` — the three calendar fields as
plain decimal strings (no zero padding, since `strNat` renders the minimal
decimal form), with no filename appended; for a root that is nonempty and has
no trailing slash this is literally
`root ++ "/" ++ year ++ "/" ++ month ++ "/" ++ day`. -/
theorem get_or_create_path_spec (fs : FSt) (out : String) (d : DateTime)
    (r : FSt × String) (h : get_or_create_path fs out d = .ok r) :
    r.2 = pjoin (pjoin (pjoin out (strNat d.year)) (strNat d.month)) (strNat d.day)
    ∧ (out ≠ "" → out.toList.getLast? ≠ some '/' →
      r.2 = out ++ "/" ++ strNat d.year ++ "/" ++ strNat d.month ++ "/" ++ strNat d.day) := by
  have h1 := createSubpaths_snd _ _ _ _ h
  have hslash : ('/' : Char).isDigit = false := by decide
  constructor
  · simpa [List.foldl] using h1
  · intro ho ho2
    have e1 : pjoin out (strNat d.year) = out ++ "/" ++ strNat d.year :=
      pjoin_eq _ _ ho ho2 (head?_ne_of_digits (strNat_digits _) hslash)
    have hne1 : (out ++ "/" ++ strNat d.year) ≠ "" :=
      string_ne_empty_of_toList (by
        rw [strToList_append]
        simp [strNat_toList_ne_nil d.year])
    have hl1 : (out ++ "/" ++ strNat d.year).toList.getLast? ≠ some '/' := by
      rw [strToList_append, List.getLast?_append_of_ne_nil _ (strNat_toList_ne_nil d.year)]
      exact getLast?_ne_of_digits (strNat_digits _) hslash
    have e2 : pjoin (out ++ "/" ++ strNat d.year) (strNat d.month)
        = out ++ "/" ++ strNat d.year ++ "/" ++ strNat d.month :=
      pjoin_eq _ _ hne1 hl1 (head?_ne_of_digits (strNat_digits _) hslash)
    have hne2 : (out ++ "/" ++ strNat d.year ++ "/" ++ strNat d.month) ≠ "" :=
      string_ne_empty_of_toList (by
        rw [strToList_append]
        simp [strNat_toList_ne_nil d.month])
    have hl2 : (out ++ "/" ++ strNat d.year ++ "/" ++ strNat d.month).toList.getLast?
        ≠ some '/' := by
      rw [strToList_append, List.getLast?_append_of_ne_nil _ (strNat_toList_ne_nil d.month)]
      exact getLast?_ne_of_digits (strNat_digits _) hslash
    have e3 : pjoin (out ++ "/" ++ strNat d.year ++ "/" ++ strNat d.month) (strNat d.day)
        = out ++ "/" ++ strNat d.year ++ "/" ++ strNat d.month ++ "/" ++ strNat d.day :=
      pjoin_eq _ _ hne2 hl2 (head?_ne_of_digits (strNat_digits _) hslash)
    rw [show r.2 = ((([strNat d.year, strNat d.month, strNat d.day]).foldl pjoin out)) from h1]
    simp only [List.foldl]
    rw [e1, e2, e3]

/-- Witness for `get_or_create_path_spec`: month 3 is rendered `3`, not `03`,
and the returned path is the leaf directory. -/
theorem get_or_create_path_spec_witness :
    ("output/2010/3/5" : String)
      = "output" ++ "/" ++ strNat 2010 ++ "/" ++ strNat 3 ++ "/" ++ strNat 5 := by
  have h : get_or_create_path [] "output" ⟨2010, 3, 5, 0, 0, 0⟩
      = .ok ([("output/2010/3/5", Entry.dir), ("output/2010/3", Entry.dir),
        ("output/2010", Entry.dir)], "output/2010/3/5") := rfl
  exact (get_or_create_path_spec _ _ _ _ h).2 (by decide) (by decide)

/-- C9: destination-directory derivation is idempotent — a second
`get_or_create_path` with the same root and date returns the same path on the
filesystem produced by the first call, raising no error, because every segment
now exists as a directory and the `isdir` guard skips every `mkdir`. -/
theorem get_or_create_path_idempotent (fs : FSt) (out : String) (d : DateTime)
    (r : FSt × String) (h : get_or_create_path fs out d = .ok r) :
    get_or_create_path r.1 out d = .ok r :=
  createSubpaths_idem _ _ _ _ h

/-- Witness for `get_or_create_path_idempotent`. -/
theorem get_or_create_path_idempotent_witness :
    get_or_create_path [("o/1/2/3", Entry.dir), ("o/1/2", Entry.dir), ("o/1", Entry.dir)]
      "o" ⟨1, 2, 3, 0, 0, 0⟩
      = .ok ([("o/1/2/3", Entry.dir), ("o/1/2", Entry.dir), ("o/1", Entry.dir)], "o/1/2/3") :=
  get_or_create_path_idempotent [] "o" ⟨1, 2, 3, 0, 0, 0⟩
    ([("o/1/2/3", Entry.dir), ("o/1/2", Entry.dir), ("o/1", Entry.dir)], "o/1/2/3") rfl

/-- C2: re-running `process_path` over the unchanged input list, against the
same output root and the ledger and filesystem a successful first run left
behind, returns exactly that state back — zero files copied, zero ledger rows
added, the output tree identical — because every walked file's first-run
record has the output root as a prefix of its copy path, so `already_copied`
skips it.  (The hypothesis on names holds for `os.walk` output: entry names
are nonempty and contain no separator.) -/
theorem process_path_idempotent (env : Env) (files : List (String × String))
    (out : String) (st0 : St) (res : St × Nat × Nat)
    (hnames : ∀ f ∈ files, ∀ c ∈ f.2.toList, c ≠ '/')
    (h1 : process_path env files out st0 = .ok res) :
    process_path env files out res.1 = .ok (res.1, files.length, 0) := by
  unfold process_path at h1 ⊢
  exact processFiles_skips env out files res.1
    (fun f hf => (processFiles_marks env out files st0 res hnames h1).2 f hf)

/-- Witness for `process_path_idempotent`: one file, first run copies it and
records it, second run returns the same state with zero copies. -/
theorem process_path_idempotent_witness :
    process_path envRerun [("/in", "x.jpg")] "/out" stRerun = .ok (stRerun, 1, 0) :=
  process_path_idempotent envRerun [("/in", "x.jpg")] "/out" ⟨[], []⟩ (stRerun, 1, 1)
    (by decide) (by rfl)

/-- Witness for `rename_copy_bumps_numeric_suffix` at the counterexample's
input: `a(b)(2).png` in directory `/d` becomes `a(3).png`. -/
theorem rename_copy_bumps_numeric_suffix_witness :
    rename_copy ("/d" ++ "/" ++ "a" ++ "(b)" ++ "(" ++ strNat 2 ++ ")." ++ "png")
      = "/d" ++ "/" ++ ("a" ++ "(" ++ strNat 3 ++ ")." ++ "png") :=
  rename_copy_bumps_numeric_suffix "/d" "a" "(b)" "png" 2
    (by decide) (by decide) (by decide) (Or.inr (by decide)) (by decide) (by decide)

end PhotoTransfer
